import Mathlib

/-!
Verification development for the `personal_investing` repository.

The optimization core (`selection.py`, `optimizer.py`, `regression.py`) is
shallowly embedded here:

* a pandas `DataFrame` of monthly returns becomes an ordered list of columns,
  each column an asset identifier together with a list of `Option ℚ` entries
  (`none` models a missing value / NaN);
* float arithmetic is idealised as exact rational arithmetic (`ℚ`), and the
  real-valued statistics of `portfolio_stats` as exact real arithmetic (`ℝ`)
  with `Option` encoding the IEEE not-a-number results;
* the external convex solver (cvxpy/SCS) and the external OLS fitter
  (statsmodels) are modelled as oracle functions supplied as parameters: the
  repository code never inspects how they compute, only consumes their output;
* `pandas.Series.sort_values(ascending=False)` is modelled through pandas
  `nargsort`'s scheme: reverse the sequence, ascending argsort, reverse the
  result.  The argsort here is a stable insertion sort, while the program's
  default `kind='quicksort'` (numpy introsort) is documented as unstable, so
  the order among equal scores is a stipulation of the model, not a guarantee
  of the program; no theorem below depends on the order of equal scores, only
  on sortedness by score, permutation and length, which hold for any correct
  descending sort.
-/

namespace PersonalInvesting

/-- One asset's monthly return series; `none` models a missing value (NaN). -/
abbrev Col := List (Option ℚ)

/-- A return matrix: ordered columns `(asset id, series)`, as in a pandas
`DataFrame` (rows = periods, columns = assets). -/
abbrev RetMat := List (String × Col)

/-- Per-column `(1.0 + df).prod(axis=0) - 1.0`: pandas `prod` skips
missing entries (`skipna=True`), and the product of an all-missing column is
the empty product `1`. From `selection.py`, `trailing_compounded_returns`. -/
def compounded1 (c : Col) : ℚ :=
  (c.foldl (fun acc x => match x with | some r => acc * (1 + r) | none => acc) 1) - 1

/-- The function `trailing_compounded_returns` from `selection.py`: per-asset compounded
total return over the window. -/
def trailing_compounded_returns (df : RetMat) : List (String × ℚ) :=
  df.map (fun p => (p.1, compounded1 p.2))

/-- Comparison on the score component, used to model the ascending argsort
underlying `sort_values`. -/
def rLE (a b : String × ℚ) : Prop := a.2 ≤ b.2

instance : DecidableRel rLE := fun a b => inferInstanceAs (Decidable (a.2 ≤ b.2))

instance : IsTotal (String × ℚ) rLE := ⟨fun a b => le_total a.2 b.2⟩

instance : IsTrans (String × ℚ) rLE := ⟨fun _ _ _ h1 h2 => le_trans h1 h2⟩

/-- Model of `Series.sort_values(ascending=False)`: pandas `nargsort`
reverses the values, argsorts ascending, and reverses the resulting order.
The argsort is modelled as a stable insertion sort; the program's default
`kind='quicksort'` (numpy introsort) is unstable above its small
insertion-sort cutoff, so the model's tie order is a stipulation and no
theorem in this file relies on it — only on the sortedness, permutation and
length of the result. -/
def sortDesc (l : List (String × ℚ)) : List (String × ℚ) :=
  (List.insertionSort rLE l.reverse).reverse

/-- Model of `.sort_values(ascending=False).head(n)`, the construct used both by
`select_top_n` and by the optimizer's Stage-1 selection and post-processing. -/
def sortHead (l : List (String × ℚ)) (n : ℕ) : List (String × ℚ) :=
  (sortDesc l).take n

/-- The function `select_top_n` from `selection.py`. -/
def select_top_n (df : RetMat) (top_n : ℕ) : List (String × ℚ) :=
  sortHead (trailing_compounded_returns df) top_n

/-- Modelled from the spec: the Ranker's per-asset score is the product of
`(1 + monthly return)` over all periods where the entry is present, minus 1;
missing entries are skipped. Written for comparison with `compounded1`. -/
def compoundedSpec (c : Col) : ℚ :=
  ((c.filterMap id).map (fun r => 1 + r)).prod - 1

/-- Modelled from the spec: the Ranker's score map, per asset. -/
def trailingSpec (df : RetMat) : List (String × ℚ) :=
  df.map (fun p => (p.1, compoundedSpec p.2))

/-- Model of `np.clip(w, 0.0, None)`: clip each weight to be nonnegative. -/
def clip (v : List ℚ) : List ℚ :=
  v.map (fun x => max x 0)

/-- The data handed to the external convex solver: the candidate return
columns (from which the code derives the mean vector and covariance matrix)
and the QP parameters λ and `max_weight`. -/
structure QPInput where
  cols : RetMat
  lam : ℚ
  maxWeight : ℚ

/-- The external convex solver (cvxpy + SCS) as an oracle: `none` models
`w.value is None` (no solution). -/
abbrev Solver := QPInput → Option (List ℚ)

/-- The function `_solve_mv` from `optimizer.py`: n = number of columns; an empty problem
returns an empty series without consulting the solver; otherwise the solver's
weights are clipped to `≥ 0`, a non-positive sum is a fatal error, and the
clipped weights are renormalized to sum to 1 and zipped with the column
names (`pd.Series(weights, index=returns.columns)`). -/
def solveMV (solver : Solver) (returns : RetMat) (lam mw : ℚ) :
    Except String (List (String × ℚ)) :=
  if returns.length = 0 then .ok []
  else
    match solver ⟨returns, lam, mw⟩ with
    | none => .error "Optimization failed"
    | some v =>
      let w := clip v
      if w.sum ≤ 0 then .error "Optimization produced non-positive weights"
      else .ok ((returns.map Prod.fst).zip (w.map (fun x => x / w.sum)))

/-- Model of `returns[selected.index]`: restrict (and reorder) the columns of a return
matrix to the given names. -/
def selectCols (ret : RetMat) (names : List String) : RetMat :=
  names.filterMap (fun a => ret.find? (fun c => c.1 = a))

/-- The Stage-1 result of a successful `_solve_mv` call on `ret` whose solver
returned the raw vector `v1`: clipped, renormalized, indexed by the columns. -/
def stage1Of (ret : RetMat) (v1 : List ℚ) : List (String × ℚ) :=
  (ret.map Prod.fst).zip ((clip v1).map (fun x => x / (clip v1).sum))

/-- The Stage-2 return submatrix
(`returns[stage1.sort_values(ascending=False).head(max_positions).index]`)
determined by the Stage-1 raw solver vector `v1`. -/
def stage2ColsOf (ret : RetMat) (v1 : List ℚ) (mp : ℕ) : RetMat :=
  selectCols ret ((sortHead (stage1Of ret v1) mp).map Prod.fst)

/-- The post-processing lines of `pragmatic_cardinality_mv`: keep Stage-2
weights strictly above `1e-6`, sort descending, keep the first
`max_positions`, and renormalize by the kept sum. -/
def postProcess (stage2 : List (String × ℚ)) (mp : ℕ) : List (String × ℚ) :=
  (sortHead (stage2.filter (fun p => 1/1000000 < p.2)) mp).map
    (fun p => (p.1, p.2 /
      ((sortHead (stage2.filter (fun p => 1/1000000 < p.2)) mp).map Prod.snd).sum))

/-- Modelled from the spec: the same post-processing but dropping only the
weights strictly below the `1e-6` threshold (keeping those equal to it), as
the spec sentence reads. Written for comparison with `postProcess`. -/
def postProcessSpec (stage2 : List (String × ℚ)) (mp : ℕ) : List (String × ℚ) :=
  (sortHead (stage2.filter (fun p => 1/1000000 ≤ p.2)) mp).map
    (fun p => (p.1, p.2 /
      ((sortHead (stage2.filter (fun p => 1/1000000 ≤ p.2)) mp).map Prod.snd).sum))

/-- The function `pragmatic_cardinality_mv` from `optimizer.py`: Stage-1 solve over the
full candidate set, selection of the `max_positions` largest Stage-1 weights,
Stage-2 solve over the reduced columns, then post-processing. -/
def pragmatic_cardinality_mv (solver : Solver) (returns : RetMat)
    (lam mw : ℚ) (mp : ℕ) : Except String (List (String × ℚ)) :=
  match solveMV solver returns lam mw with
  | .error e => .error e
  | .ok stage1 =>
    match solveMV solver (selectCols returns ((sortHead stage1 mp).map Prod.fst)) lam mw with
    | .error e => .error e
    | .ok stage2 => .ok (postProcess stage2 mp)

/-- Exact feasibility of a raw solver vector for the QP constraints
`w ≥ 0`, `Σ w = 1`, `w ≤ max_weight` (the ideal-solver hypothesis; the
spec's tolerances absorb real solver noise). -/
def Feasible (mw : ℚ) (v : List ℚ) : Prop :=
  (∀ x ∈ v, 0 ≤ x ∧ x ≤ mw) ∧ v.sum = 1

/-- Series mean, `monthly_returns.mean()`. The IEEE NaN of an empty series is
idealised as `0/0 = 0`; `portfolio_stats` is compared against the spec on the
same idealisation on both sides. -/
noncomputable def smean (xs : List ℝ) : ℝ :=
  xs.sum / xs.length

/-- Sample standard deviation with one degree of freedom,
`monthly_returns.std(ddof=1)`; the NaN produced by a series of length `≤ 1`
is idealised through division by zero. -/
noncomputable def sstd (xs : List ℝ) : ℝ :=
  Real.sqrt ((xs.map (fun x => (x - smean xs) ^ 2)).sum / ((xs.length : ℝ) - 1))

/-- The record returned by `portfolio_stats`; the two Sharpe fields use
`Option ℝ`, `none` standing for the float NaN the code reports. -/
structure PortfolioStats where
  mean_monthly : ℝ
  vol_monthly : ℝ
  sharpe_monthly : Option ℝ
  mean_annual : ℝ
  vol_annual : ℝ
  sharpe_annual : Option ℝ

/-- The function `portfolio_stats` from `optimizer.py`. -/
noncomputable def portfolio_stats (xs : List ℝ) : PortfolioStats :=
  let mean_m := smean xs
  let vol_m := sstd xs
  let sharpe_m := if 0 < vol_m then some (mean_m / vol_m) else none
  let mean_a := (1 + mean_m) ^ 12 - 1
  let vol_a := vol_m * Real.sqrt 12
  let sharpe_a := if 0 < vol_a then some (mean_a / vol_a) else none
  ⟨mean_m, vol_m, sharpe_m, mean_a, vol_a, sharpe_a⟩

/-- Modelled from the spec: mean and ddof-1 standard deviation, monthly
Sharpe `mean/std` reported as not-a-number when the standard deviation is 0,
annualized mean `(1+mean)^12 - 1`, annualized volatility `std * sqrt 12`,
annualized Sharpe with the same not-a-number rule. Written for comparison
with `portfolio_stats`. -/
noncomputable def portfolioStatsSpec (xs : List ℝ) : PortfolioStats :=
  let mean_m := smean xs
  let vol_m := sstd xs
  let mean_a := (1 + mean_m) ^ 12 - 1
  let vol_a := vol_m * Real.sqrt 12
  ⟨mean_m, vol_m,
    if vol_m = 0 then none else some (mean_m / vol_m),
    mean_a, vol_a,
    if vol_a = 0 then none else some (mean_a / vol_a)⟩

/-- One row of the Fama-French factor table: the five factor returns and the
risk-free rate, any of which may be missing. -/
structure FRow where
  mktrf : Option ℚ
  smb : Option ℚ
  hml : Option ℚ
  rmw : Option ℚ
  cma : Option ℚ
  rf : Option ℚ
deriving DecidableEq

/-- A fully populated joined row surviving `.dropna()`:
the portfolio return and the six factor-table values of one period. -/
structure JRow where
  port : ℚ
  mktrf : ℚ
  smb : ℚ
  hml : ℚ
  rmw : ℚ
  cma : ℚ
  rf : ℚ
deriving DecidableEq

/-- The `FRow` whose fields are exactly those recorded in a joined row. -/
def frowOf (j : JRow) : FRow :=
  ⟨some j.mktrf, some j.smb, some j.hml, some j.rmw, some j.cma, some j.rf⟩

/-- A joined row survives `.dropna()` only when the portfolio value and every
factor-table value of that period are present. -/
def completeRow (v : Option ℚ) (r : FRow) : Option JRow :=
  match v, r.mktrf, r.smb, r.hml, r.rmw, r.cma, r.rf with
  | some p, some a, some b, some c, some d, some e, some f =>
      some ⟨p, a, b, c, d, e, f⟩
  | _, _, _, _, _, _, _ => none

/-- Model of the join `pd.DataFrame` of the portfolio series with `ff5`, `how="inner"`, followed by `.dropna()`: keep the
periods of the portfolio series that also occur in the factor table and whose
joined row has no missing value. Periods are modelled as integers (month
indices); the factor table is keyed by period. -/
def joinDropna (port : List (ℤ × Option ℚ)) (ff5 : List (ℤ × FRow)) :
    List (ℤ × JRow) :=
  port.filterMap (fun pv =>
    (ff5.find? (fun q => q.1 = pv.1)).bind (fun qr =>
      (completeRow pv.2 qr.2).map (fun j => (pv.1, j))))

/-- The record returned by `run_ff5_regression`. -/
structure RegResult where
  alpha_monthly : ℚ
  alpha_annualized : ℚ
  alpha_tstat : ℚ
  n_obs : ℕ
deriving DecidableEq

/-- The external OLS fitter (`sm.OLS(y, sm.add_constant(X)).fit()`) as an
oracle taking the five-factor design rows and the regressand and returning
the intercept estimate and its t-statistic; `.error` models the exception
statsmodels raises (for instance on an empty or degenerate sample). -/
abbrev OLS := List (ℚ × ℚ × ℚ × ℚ × ℚ) → List ℚ → Except String (ℚ × ℚ)

/-- The function `run_ff5_regression` from `regression.py`: join and drop incomplete rows,
regress the excess return `port - RF` on the five factors plus a constant,
and report the intercept (monthly alpha), `(1+alpha)^12 - 1`, the intercept's
t-statistic, and the number of observations. An OLS failure propagates. -/
def run_ff5_regression (ols : OLS) (port : List (ℤ × Option ℚ))
    (ff5 : List (ℤ × FRow)) : Except String RegResult :=
  match ols
      ((joinDropna port ff5).map (fun r => (r.2.mktrf, r.2.smb, r.2.hml, r.2.rmw, r.2.cma)))
      ((joinDropna port ff5).map (fun r => r.2.port - r.2.rf)) with
  | .error e => .error e
  | .ok (alpha, t) =>
      .ok ⟨alpha, (1 + alpha) ^ 12 - 1, t, (joinDropna port ff5).length⟩

theorem sortDesc_perm (l : List (String × ℚ)) : (sortDesc l).Perm l :=
  (List.reverse_perm _).trans ((List.perm_insertionSort _ _).trans (List.reverse_perm l))

theorem sortDesc_length (l : List (String × ℚ)) : (sortDesc l).length = l.length :=
  (sortDesc_perm l).length_eq

theorem sortDesc_sorted (l : List (String × ℚ)) :
    (sortDesc l).Pairwise (fun a b => b.2 ≤ a.2) := by
  rw [sortDesc, List.pairwise_reverse]
  exact List.sorted_insertionSort rLE l.reverse

theorem foldl_skip_prod (c : Col) (acc : ℚ) :
    c.foldl (fun acc x => match x with | some r => acc * (1 + r) | none => acc) acc =
      acc * ((c.filterMap id).map (fun r => 1 + r)).prod := by
  induction c generalizing acc with
  | nil => simp
  | cons x xs ih =>
    cases x with
    | none => simpa using ih acc
    | some r =>
      simp only [List.foldl_cons, List.filterMap_cons, id, List.map_cons, List.prod_cons,
        ih (acc * (1 + r))]
      ring

theorem compounded1_eq_spec (c : Col) : compounded1 c = compoundedSpec c := by
  rw [compounded1, compoundedSpec, foldl_skip_prod, one_mul]

/-- C5: for every asset column, `trailing_compounded_returns` computes the
product of `(1 + monthly return)` over the periods where the entry is
present, minus 1; a missing entry is skipped and does not contribute to the
compounding. Stated as agreement with the spec-side definition
`trailingSpec`. -/
theorem trailing_compounded_returns_eq_spec (df : RetMat) :
    trailing_compounded_returns df = trailingSpec df := by
  rw [trailing_compounded_returns, trailingSpec]
  exact List.map_congr_left (fun p _ => by rw [compounded1_eq_spec])

/-- C6: for every return matrix and every `top_n > 0`, the output of
`select_top_n` has exactly `min top_n (number of columns)` entries and its
scores are non-increasing from the first position to the last. -/
theorem select_top_n_shape (df : RetMat) (top_n : ℕ) (h : 0 < top_n) :
    (select_top_n df top_n).length = min top_n df.length ∧
      (select_top_n df top_n).Pairwise (fun a b => b.2 ≤ a.2) := by
  constructor
  · rw [select_top_n, sortHead, List.length_take, sortDesc_length,
      trailing_compounded_returns, List.length_map]
  · exact List.Pairwise.sublist (List.take_sublist _ _) (sortDesc_sorted _)

/-- Witness for C6 at a concrete two-column matrix and `top_n = 1`. -/
theorem select_top_n_shape_witness :
    (select_top_n [("A", [some 1]), ("B", [some 0])] 1).length = min 1 2 ∧
      (select_top_n [("A", [some 1]), ("B", [some 0])] 1).Pairwise
        (fun a b => b.2 ≤ a.2) :=
  select_top_n_shape [("A", [some 1]), ("B", [some 0])] 1 (by decide)

theorem foldl_all_none (c : Col) (h : ∀ x ∈ c, x = none) (acc : ℚ) :
    c.foldl (fun acc x => match x with | some r => acc * (1 + r) | none => acc) acc
      = acc := by
  induction c generalizing acc with
  | nil => rfl
  | cons x xs ih =>
    have hx : x = none := h x (List.mem_cons_self x xs)
    subst hx
    exact ih (fun y hy => h y (List.mem_cons_of_mem _ hy)) acc

theorem compounded1_all_none (c : Col) (h : ∀ x ∈ c, x = none) :
    compounded1 c = 0 := by
  rw [compounded1, foldl_all_none c h 1, sub_self]

/-- C10: an asset column whose entries are all missing gets the empty-product
score `0` from `trailing_compounded_returns`, so when `top_n` covers the
whole matrix `select_top_n` places it (with score exactly 0) at a strictly
earlier position than every asset with strictly negative compounded return,
rather than excluding it. -/
theorem all_missing_ranks_above_negative
    (df : RetMat) (top_n : ℕ) (a b : String) (ca cb : Col)
    (ha : (a, ca) ∈ df) (hca : ∀ x ∈ ca, x = none)
    (hb : (b, cb) ∈ df) (hcb : compounded1 cb < 0)
    (htop : df.length ≤ top_n) :
    compounded1 ca = 0 ∧
      ∃ i j : Fin (select_top_n df top_n).length,
        (i : ℕ) < (j : ℕ) ∧
          (select_top_n df top_n).get i = (a, 0) ∧
          (select_top_n df top_n).get j = (b, compounded1 cb) := by
  have hc0 : compounded1 ca = 0 := compounded1_all_none ca hca
  have hlen : (sortDesc (trailing_compounded_returns df)).length ≤ top_n := by
    rw [sortDesc_length, trailing_compounded_returns, List.length_map]
    exact htop
  have hsel : select_top_n df top_n = sortDesc (trailing_compounded_returns df) := by
    rw [select_top_n, sortHead, List.take_of_length_le hlen]
  have hma : (a, (0 : ℚ)) ∈ select_top_n df top_n := by
    rw [hsel, (sortDesc_perm _).mem_iff, trailing_compounded_returns]
    have := List.mem_map_of_mem (fun p : String × Col => (p.1, compounded1 p.2)) ha
    simpa [hc0] using this
  have hmb : (b, compounded1 cb) ∈ select_top_n df top_n := by
    rw [hsel, (sortDesc_perm _).mem_iff, trailing_compounded_returns]
    exact List.mem_map_of_mem (fun p : String × Col => (p.1, compounded1 p.2)) hb
  have hsorted : (select_top_n df top_n).Pairwise (fun a b => b.2 ≤ a.2) := by
    rw [hsel]; exact sortDesc_sorted _
  obtain ⟨i, hi⟩ := List.mem_iff_get.mp hma
  obtain ⟨j, hj⟩ := List.mem_iff_get.mp hmb
  refine ⟨hc0, i, j, ?_⟩
  rcases lt_trichotomy (i : ℕ) (j : ℕ) with hlt | heq | hgt
  · exact ⟨hlt, hi, hj⟩
  · exfalso
    have hij : i = j := Fin.ext heq
    rw [hij, hj] at hi
    have := congrArg Prod.snd hi
    simp only at this
    rw [← this] at hcb
    exact absurd hcb (by norm_num)
  · exfalso
    have hrel := List.pairwise_iff_get.mp hsorted j i hgt
    rw [hi, hj] at hrel
    simp only at hrel
    exact absurd (lt_of_lt_of_le hcb hrel) (by norm_num)

/-- Witness for C10: a two-column matrix with one all-missing column and one
strictly negative column. -/
theorem all_missing_ranks_above_negative_witness :
    compounded1 [none] = 0 ∧
      ∃ i j : Fin (select_top_n [("X", [some (-1/2)]), ("Y", [none])] 2).length,
        (i : ℕ) < (j : ℕ) ∧
          (select_top_n [("X", [some (-1/2)]), ("Y", [none])] 2).get i = ("Y", 0) ∧
          (select_top_n [("X", [some (-1/2)]), ("Y", [none])] 2).get j =
            ("X", compounded1 [some (-1/2)]) :=
  all_missing_ranks_above_negative [("X", [some (-1/2)]), ("Y", [none])] 2
    "Y" "X" [none] [some (-1/2)]
    (by simp) (by simp) (by simp) (by norm_num [compounded1]) (by simp)

/-- C9: on a return matrix with zero asset columns the core operations
succeed instead of raising: `select_top_n` returns an empty mapping for every
`top_n`, and `pragmatic_cardinality_mv` returns an empty weight vector for
every solver oracle, λ, `max_weight` and `max_positions` (the `n == 0` early
return of `_solve_mv` never consults the solver). -/
theorem empty_matrix_ok (solver : Solver) (lam mw : ℚ) (mp top_n : ℕ) :
    select_top_n ([] : RetMat) top_n = [] ∧
      pragmatic_cardinality_mv solver [] lam mw mp = .ok [] := by
  constructor
  · cases top_n <;> rfl
  · cases mp <;> rfl

theorem length_ne_zero_of_ne_nil {l : RetMat} (h : l ≠ []) : ¬(l.length = 0) :=
  fun h0 => h (List.length_eq_zero.mp h0)

/-- C2: for a non-empty candidate matrix (the case in which `_solve_mv`
actually invokes the convex solver), `_solve_mv` fails exactly when the
solver yields no solution (`w.value is None`) or the clipped weights sum to a
non-positive value; in every other case it returns the clipped weights
renormalized to sum to 1, indexed by the columns, and an error never carries
a partial result (the `Except` error constructor holds no weights). -/
theorem solveMV_spec (solver : Solver) (ret : RetMat) (lam mw : ℚ)
    (hret : ret ≠ []) :
    (solver ⟨ret, lam, mw⟩ = none →
        solveMV solver ret lam mw = .error "Optimization failed") ∧
    (∀ v, solver ⟨ret, lam, mw⟩ = some v →
        ((clip v).sum ≤ 0 →
          solveMV solver ret lam mw =
            .error "Optimization produced non-positive weights") ∧
        (0 < (clip v).sum →
          solveMV solver ret lam mw = .ok (stage1Of ret v) ∧
            (v.length = ret.length →
              ((stage1Of ret v).map Prod.snd).sum = 1))) ∧
    ((∃ e, solveMV solver ret lam mw = .error e) ↔
      solver ⟨ret, lam, mw⟩ = none ∨
        ∃ v, solver ⟨ret, lam, mw⟩ = some v ∧ (clip v).sum ≤ 0) := by
  have hn : ¬(ret.length = 0) := length_ne_zero_of_ne_nil hret
  refine ⟨?_, ?_, ?_⟩
  · intro h
    rw [solveMV, if_neg hn, h]
  · intro v hv
    constructor
    · intro hle
      rw [solveMV, if_neg hn, hv]
      exact if_pos hle
    · intro hpos
      constructor
      · rw [solveMV, if_neg hn, hv]
        exact if_neg (not_le.mpr hpos)
      · intro hlen
        rw [stage1Of, List.map_snd_zip]
        · simp only [div_eq_mul_inv]
          rw [List.sum_map_mul_right ((clip v)) (fun x => x)]
          simp only [List.map_id']
          exact mul_inv_cancel₀ (ne_of_gt hpos)
        · rw [List.length_map, List.length_map, clip, List.length_map, hlen]
  · cases hso : solver ⟨ret, lam, mw⟩ with
    | none =>
      refine ⟨fun _ => Or.inl rfl, fun _ => ⟨"Optimization failed", ?_⟩⟩
      rw [solveMV, if_neg hn, hso]
    | some v =>
      by_cases hle : (clip v).sum ≤ 0
      · refine ⟨fun _ => Or.inr ⟨v, rfl, hle⟩,
          fun _ => ⟨"Optimization produced non-positive weights", ?_⟩⟩
        rw [solveMV, if_neg hn, hso]
        exact if_pos hle
      · constructor
        · rintro ⟨e, he⟩
          rw [solveMV, if_neg hn, hso] at he
          have he' : (if (clip v).sum ≤ 0 then
                (Except.error "Optimization produced non-positive weights" :
                  Except String (List (String × ℚ)))
              else .ok ((ret.map Prod.fst).zip
                ((clip v).map (fun x => x / (clip v).sum)))) = .error e := he
          rw [if_neg hle] at he'
          exact absurd he' (by simp)
        · rintro (h | ⟨v', hv', hle'⟩)
          · exact absurd h (by simp)
          · injection hv' with h'
            subst h'
            exact absurd hle' hle

/-- Witness for C2 at a concrete two-column matrix and a solver returning a
positive-sum vector. -/
theorem solveMV_spec_witness :
    solveMV (fun _ => some [(3 : ℚ)/4, 1/4]) [("A", [some 0]), ("B", [some 0])] 0 1 =
      .ok (stage1Of [("A", [some 0]), ("B", [some 0])] [(3 : ℚ)/4, 1/4]) ∧
    ((stage1Of [("A", [some 0]), ("B", [some 0])] [(3 : ℚ)/4, 1/4]).map Prod.snd).sum = 1 := by
  have h := (solveMV_spec (fun _ => some [(3 : ℚ)/4, 1/4])
    [("A", [some 0]), ("B", [some 0])] 0 1 (by simp)).2.1
    [(3 : ℚ)/4, 1/4] rfl
  have h2 := h.2 (by norm_num [clip])
  exact ⟨h2.1, h2.2 rfl⟩

theorem clip_of_nonneg {v : List ℚ} (h : ∀ x ∈ v, 0 ≤ x) : clip v = v := by
  rw [clip]
  exact (List.map_congr_left (fun x hx => max_eq_left (h x hx))).trans (List.map_id' v)

theorem sum_snd_filter_split (p : (String × ℚ) → Bool) (l : List (String × ℚ)) :
    ((l.filter p).map Prod.snd).sum +
        ((l.filter (fun x => ! p x)).map Prod.snd).sum =
      (l.map Prod.snd).sum := by
  induction l with
  | nil => simp
  | cons x xs ih =>
    cases hx : p x
    · simp only [List.filter_cons, hx, Bool.not_false, if_true, if_false,
        Bool.false_eq_true, List.map_cons, List.sum_cons, List.map]
      rw [← ih]
      ring
    · simp only [List.filter_cons, hx, Bool.not_true, if_true, if_false,
        Bool.false_eq_true, List.map_cons, List.sum_cons, List.map]
      rw [← ih]
      ring

theorem sum_le_length_mul (l : List ℚ) (c : ℚ) (h : ∀ x ∈ l, x ≤ c) :
    l.sum ≤ l.length * c := by
  induction l with
  | nil => simp
  | cons x xs ih =>
    simp only [List.sum_cons, List.length_cons]
    have h1 := h x (List.mem_cons_self x xs)
    have h2 := ih (fun y hy => h y (List.mem_cons_of_mem _ hy))
    push_cast
    linarith

theorem sortHead_subset {x : String × ℚ} {l : List (String × ℚ)} {n : ℕ}
    (hx : x ∈ sortHead l n) : x ∈ l :=
  (sortDesc_perm l).mem_iff.mp ((List.take_sublist n (sortDesc l)).subset hx)

theorem sortHead_of_length_le {l : List (String × ℚ)} {n : ℕ} (h : l.length ≤ n) :
    sortHead l n = sortDesc l := by
  rw [sortHead, List.take_of_length_le (by rw [sortDesc_length]; exact h)]

theorem sortHead_length_le (l : List (String × ℚ)) (n : ℕ) :
    (sortHead l n).length ≤ n := by
  rw [sortHead, List.length_take]
  exact min_le_left _ _

/-- C1: for a valid optimizer input (non-empty candidate matrix, λ ≥ 0,
`max_weight` in (0,1], `max_positions > 0`, here additionally small enough
that `max_positions * 1e-6 ≤ 1/2`, which quantifies the claim's "small
tolerance") on which Stage 1 succeeds (raw vector `v1` with positive clipped
sum) and Stage 2 succeeds with a constraint-respecting vector `v2` of the
right length, `pragmatic_cardinality_mv` returns weights that are all `≥ 0`,
sum to exactly 1, number at most `max_positions`, and are each at most
`max_weight + 2 * max_positions * 1e-6` (renormalizing after dropping the
`≤ 1e-6` dust can exceed `max_weight` by at most that much). -/
theorem pragmatic_weights_valid
    (solver : Solver) (ret : RetMat) (lam mw : ℚ) (mp : ℕ) (v1 v2 : List ℚ)
    (hret : ret ≠ []) (hlam : 0 ≤ lam) (hmw0 : 0 < mw) (hmw1 : mw ≤ 1)
    (hmp : 0 < mp) (hmpB : (mp : ℚ) * (1 / 1000000) ≤ 1 / 2)
    (h1 : solver ⟨ret, lam, mw⟩ = some v1)
    (h1pos : 0 < (clip v1).sum)
    (h2 : solver ⟨stage2ColsOf ret v1 mp, lam, mw⟩ = some v2)
    (h2len : v2.length = (stage2ColsOf ret v1 mp).length)
    (h2f : Feasible mw v2) :
    ∃ w, pragmatic_cardinality_mv solver ret lam mw mp = .ok w ∧
      (∀ p ∈ w, 0 ≤ p.2) ∧
      (w.map Prod.snd).sum = 1 ∧
      w.length ≤ mp ∧
      (∀ p ∈ w, p.2 ≤ mw + 2 * mp * (1 / 1000000)) := by
  have hn : ¬(ret.length = 0) := length_ne_zero_of_ne_nil hret
  have hv2sum : v2.sum = 1 := h2f.2
  have hv2nonneg : ∀ x ∈ v2, 0 ≤ x := fun x hx => (h2f.1 x hx).1
  have hv2mw : ∀ x ∈ v2, x ≤ mw := fun x hx => (h2f.1 x hx).2
  have hclip2 : clip v2 = v2 := clip_of_nonneg hv2nonneg
  have hs1 : solveMV solver ret lam mw = .ok (stage1Of ret v1) := by
    rw [solveMV, if_neg hn, h1]
    exact if_neg (not_le.mpr h1pos)
  have hsubne : ¬((stage2ColsOf ret v1 mp).length = 0) := by
    intro h0
    have hv2nil : v2 = [] := List.length_eq_zero.mp (h2len.trans h0)
    rw [hv2nil] at hv2sum
    exact absurd hv2sum (by norm_num)
  have hs2 : solveMV solver (stage2ColsOf ret v1 mp) lam mw =
      .ok (((stage2ColsOf ret v1 mp).map Prod.fst).zip v2) := by
    rw [solveMV, if_neg hsubne, h2]
    have hpos : ¬((clip v2).sum ≤ 0) := by
      rw [hclip2, hv2sum]; norm_num
    have hred : (if (clip v2).sum ≤ 0 then
          (Except.error "Optimization produced non-positive weights" :
            Except String (List (String × ℚ)))
        else .ok (((stage2ColsOf ret v1 mp).map Prod.fst).zip
          ((clip v2).map (fun x => x / (clip v2).sum)))) =
        .ok (((stage2ColsOf ret v1 mp).map Prod.fst).zip v2) := by
      rw [if_neg hpos, hclip2, hv2sum]
      simp
    exact hred
  have hkey : pragmatic_cardinality_mv solver ret lam mw mp =
      .ok (postProcess (((stage2ColsOf ret v1 mp).map Prod.fst).zip v2) mp) := by
    rw [pragmatic_cardinality_mv, hs1]
    show (match solveMV solver (stage2ColsOf ret v1 mp) lam mw with
      | Except.error e => (Except.error e : Except String (List (String × ℚ)))
      | Except.ok stage2 => Except.ok (postProcess stage2 mp)) =
        Except.ok (postProcess (((stage2ColsOf ret v1 mp).map Prod.fst).zip v2) mp)
    rw [hs2]
  -- abbreviations for the joined Stage-2 series, the kept entries, the total
  have hS2snd : (((stage2ColsOf ret v1 mp).map Prod.fst).zip v2).map Prod.snd = v2 :=
    List.map_snd_zip _ _ (by rw [List.length_map, h2len])
  have hS2len : ((((stage2ColsOf ret v1 mp).map Prod.fst).zip v2)).length =
      (stage2ColsOf ret v1 mp).length := by
    rw [List.length_zip, List.length_map, ← h2len, min_self]
  have hn2 : (stage2ColsOf ret v1 mp).length ≤ mp := by
    rw [stage2ColsOf, selectCols]
    refine le_trans (List.length_filterMap_le _ _) ?_
    rw [List.length_map]
    exact sortHead_length_le _ _
  have hmemv2 : ∀ p ∈ (((stage2ColsOf ret v1 mp).map Prod.fst).zip v2), p.2 ∈ v2 := by
    rintro ⟨pa, pb⟩ hp
    exact (List.of_mem_zip hp).2
  have hNZlen : ((((stage2ColsOf ret v1 mp).map Prod.fst).zip v2).filter
      (fun p => 1/1000000 < p.2)).length ≤ mp :=
    le_trans (List.length_filter_le _ _) (le_of_eq_of_le hS2len hn2)
  have hsortNZ : sortHead ((((stage2ColsOf ret v1 mp).map Prod.fst).zip v2).filter
      (fun p => 1/1000000 < p.2)) mp =
      sortDesc ((((stage2ColsOf ret v1 mp).map Prod.fst).zip v2).filter
        (fun p => 1/1000000 < p.2)) :=
    sortHead_of_length_le hNZlen
  have hsplit := sum_snd_filter_split (fun p => decide (1/1000000 < p.2))
    (((stage2ColsOf ret v1 mp).map Prod.fst).zip v2)
  rw [hS2snd, hv2sum] at hsplit
  -- the dropped dust is nonnegative and at most mp * 1e-6
  have hdropmem : ∀ y ∈ (((((stage2ColsOf ret v1 mp).map Prod.fst).zip v2).filter
      (fun x => ! decide (1/1000000 < x.2))).map Prod.snd), y ≤ 1/1000000 := by
    intro y hy
    obtain ⟨p, hp, hpy⟩ := List.mem_map.mp hy
    have hfp := List.of_mem_filter hp
    simp only [Bool.not_eq_true', decide_eq_false_iff_not, not_lt] at hfp
    rw [← hpy]
    exact hfp
  have hdropnn : ∀ y ∈ (((((stage2ColsOf ret v1 mp).map Prod.fst).zip v2).filter
      (fun x => ! decide (1/1000000 < x.2))).map Prod.snd), 0 ≤ y := by
    intro y hy
    obtain ⟨p, hp, hpy⟩ := List.mem_map.mp hy
    have hpS2 := (List.filter_sublist _).subset hp
    rw [← hpy]
    exact hv2nonneg _ (hmemv2 p hpS2)
  have hdroplen : ((((((stage2ColsOf ret v1 mp).map Prod.fst).zip v2).filter
      (fun x => ! decide (1/1000000 < x.2))).map Prod.snd)).length ≤ mp := by
    rw [List.length_map]
    exact le_trans (List.length_filter_le _ _) (le_of_eq_of_le hS2len hn2)
  have hdropsum : (((((stage2ColsOf ret v1 mp).map Prod.fst).zip v2).filter
      (fun x => ! decide (1/1000000 < x.2))).map Prod.snd).sum ≤ (mp : ℚ) * (1/1000000) := by
    refine le_trans (sum_le_length_mul _ _ hdropmem) ?_
    refine mul_le_mul_of_nonneg_right ?_ (by norm_num)
    exact_mod_cast hdroplen
  have hdropsum0 : 0 ≤ (((((stage2ColsOf ret v1 mp).map Prod.fst).zip v2).filter
      (fun x => ! decide (1/1000000 < x.2))).map Prod.snd).sum :=
    List.sum_nonneg hdropnn
  -- the kept total
  have hTeq : ((sortHead ((((stage2ColsOf ret v1 mp).map Prod.fst).zip v2).filter
      (fun p => 1/1000000 < p.2)) mp).map Prod.snd).sum =
      (((((stage2ColsOf ret v1 mp).map Prod.fst).zip v2).filter
        (fun p => 1/1000000 < p.2)).map Prod.snd).sum := by
    rw [hsortNZ]
    exact ((sortDesc_perm _).map Prod.snd).sum_eq
  have hTlow : 1 - (mp : ℚ) * (1/1000000) ≤
      ((sortHead ((((stage2ColsOf ret v1 mp).map Prod.fst).zip v2).filter
        (fun p => 1/1000000 < p.2)) mp).map Prod.snd).sum := by
    rw [hTeq]
    linarith [hsplit, hdropsum]
  have hThigh : ((sortHead ((((stage2ColsOf ret v1 mp).map Prod.fst).zip v2).filter
      (fun p => 1/1000000 < p.2)) mp).map Prod.snd).sum ≤ 1 := by
    rw [hTeq]
    linarith [hsplit, hdropsum0]
  have hTpos : 0 < ((sortHead ((((stage2ColsOf ret v1 mp).map Prod.fst).zip v2).filter
      (fun p => 1/1000000 < p.2)) mp).map Prod.snd).sum := by
    refine lt_of_lt_of_le ?_ hTlow
    linarith [hmpB]
  have hmemNZ : ∀ p ∈ sortHead ((((stage2ColsOf ret v1 mp).map Prod.fst).zip v2).filter
      (fun p => 1/1000000 < p.2)) mp, p.2 ∈ v2 := by
    intro p hp
    have h1' := sortHead_subset hp
    exact hmemv2 p ((List.filter_sublist _).subset h1')
  refine ⟨postProcess (((stage2ColsOf ret v1 mp).map Prod.fst).zip v2) mp, hkey, ?_, ?_, ?_, ?_⟩
  · intro p hp
    obtain ⟨q, hq, hqp⟩ := List.mem_map.mp hp
    rw [← hqp]
    exact div_nonneg (hv2nonneg _ (hmemNZ q hq)) (le_of_lt hTpos)
  · rw [postProcess, List.map_map]
    have : (Prod.snd ∘ fun p : String × ℚ => (p.1, p.2 /
        ((sortHead ((((stage2ColsOf ret v1 mp).map Prod.fst).zip v2).filter
          (fun p => 1/1000000 < p.2)) mp).map Prod.snd).sum)) =
        fun p : String × ℚ => p.2 *
          (((sortHead ((((stage2ColsOf ret v1 mp).map Prod.fst).zip v2).filter
            (fun p => 1/1000000 < p.2)) mp).map Prod.snd).sum)⁻¹ := by
      funext p
      simp [div_eq_mul_inv]
    rw [this, List.sum_map_mul_right]
    exact mul_inv_cancel₀ (ne_of_gt hTpos)
  · rw [postProcess, List.length_map]
    exact sortHead_length_le _ _
  · intro p hp
    obtain ⟨q, hq, hqp⟩ := List.mem_map.mp hp
    rw [← hqp]
    have hqmw : q.2 ≤ mw := hv2mw _ (hmemNZ q hq)
    have hq0 : 0 ≤ q.2 := hv2nonneg _ (hmemNZ q hq)
    simp only
    rw [div_le_iff₀ hTpos]
    nlinarith [hTlow, hThigh, hmpB, (Nat.cast_pos.mpr hmp : (0 : ℚ) < mp)]

/-- Witness for C1 at a concrete one-column matrix and a feasible constant
solver oracle. -/
theorem pragmatic_weights_valid_witness :
    ∃ w, pragmatic_cardinality_mv (fun _ => some [(1 : ℚ)]) [("A", [some 0])] 0 1 1 =
        .ok w ∧
      (∀ p ∈ w, 0 ≤ p.2) ∧
      (w.map Prod.snd).sum = 1 ∧
      w.length ≤ 1 ∧
      (∀ p ∈ w, p.2 ≤ 1 + 2 * ((1 : ℕ) : ℚ) * (1 / 1000000)) :=
  pragmatic_weights_valid (fun _ => some [(1 : ℚ)]) [("A", [some 0])] 0 1 1 [1] [1]
    (by simp) le_rfl (by norm_num) le_rfl (by norm_num) (by norm_num)
    rfl (by norm_num [clip]) rfl rfl
    ⟨by intro x hx; rw [List.mem_singleton] at hx; subst hx;
        exact ⟨by norm_num, le_rfl⟩, by simp⟩

/-- Counterexample for C3: a successful run whose Stage-2 solution contains a
weight of exactly `1e-6`. The code's filter `stage2 > 1e-6` drops that
weight, while the claim's transform ("drop every weight below 1e-6") keeps
it, so the returned vector differs from the claimed transform of the Stage-2
solution. -/
theorem postProcess_threshold_counterexample :
    pragmatic_cardinality_mv (fun _ => some [1 - 1/1000000, 1/1000000])
        [("A", [some 0]), ("B", [some 0])] 0 1 2 =
      .ok [("A", (1 : ℚ))] ∧
    solveMV (fun _ => some [1 - 1/1000000, 1/1000000])
        (stage2ColsOf [("A", [some 0]), ("B", [some 0])] [1 - 1/1000000, 1/1000000] 2)
        0 1 =
      .ok [("A", 1 - 1/1000000), ("B", 1/1000000)] ∧
    postProcessSpec [("A", 1 - 1/1000000), ("B", 1/1000000)] 2 =
      [("A", 1 - 1/1000000), ("B", 1/1000000)] ∧
    pragmatic_cardinality_mv (fun _ => some [1 - 1/1000000, 1/1000000])
        [("A", [some 0]), ("B", [some 0])] 0 1 2 ≠
      .ok (postProcessSpec [("A", 1 - 1/1000000), ("B", 1/1000000)] 2) := by
  refine ⟨?_, ?_, ?_, ?_⟩
  · norm_num +decide [pragmatic_cardinality_mv, solveMV, clip, selectCols, sortHead,
      sortDesc, rLE, postProcess, List.find?, List.filter]
  · norm_num +decide [solveMV, clip, selectCols, sortHead, sortDesc, rLE,
      stage2ColsOf, stage1Of, List.find?, List.filter, List.filterMap_cons]
  · norm_num +decide [postProcessSpec, sortHead, sortDesc, rLE, List.filter]
  · norm_num +decide [pragmatic_cardinality_mv, solveMV, clip, selectCols, sortHead,
      sortDesc, rLE, postProcess, postProcessSpec, List.find?, List.filter]

/-- C3 (amended): whenever both solver stages succeed, the vector returned by
`pragmatic_cardinality_mv` equals exactly the post-processing transform that
drops every Stage-2 weight less than or equal to the threshold `1e-6`
(equivalently, keeps only weights strictly above it), keeps at most
`max_positions` of the remainder taking the largest first, and renormalizes
the kept weights to sum to 1; this agrees with the claim's "drop below the
threshold" reading whenever no Stage-2 weight equals `1e-6` exactly. -/
theorem pragmatic_post_processing
    (solver : Solver) (ret : RetMat) (lam mw : ℚ) (mp : ℕ)
    (stage1 stage2 : List (String × ℚ))
    (hs1 : solveMV solver ret lam mw = .ok stage1)
    (hs2 : solveMV solver (selectCols ret ((sortHead stage1 mp).map Prod.fst)) lam mw =
      .ok stage2) :
    pragmatic_cardinality_mv solver ret lam mw mp = .ok (postProcess stage2 mp) ∧
      ((∀ p ∈ stage2, p.2 ≠ 1/1000000) →
        postProcess stage2 mp = postProcessSpec stage2 mp) := by
  constructor
  · rw [pragmatic_cardinality_mv, hs1]
    show (match solveMV solver (selectCols ret ((sortHead stage1 mp).map Prod.fst)) lam mw with
      | Except.error e => (Except.error e : Except String (List (String × ℚ)))
      | Except.ok s2 => Except.ok (postProcess s2 mp)) = Except.ok (postProcess stage2 mp)
    rw [hs2]
  · intro hne
    have hfeq : stage2.filter (fun p => 1/1000000 < p.2) =
        stage2.filter (fun p => 1/1000000 ≤ p.2) := by
      refine List.filter_congr (fun p hp => ?_)
      refine decide_eq_decide.mpr ⟨le_of_lt, fun hle => ?_⟩
      exact lt_of_le_of_ne hle (fun h => hne p hp h.symm)
    rw [postProcess, postProcessSpec, hfeq]

/-- Witness for the amended C3 at a concrete one-column run. -/
theorem pragmatic_post_processing_witness :
    pragmatic_cardinality_mv (fun _ => some [(1 : ℚ)]) [("A", [some 0])] 0 1 1 =
        .ok (postProcess [("A", (1 : ℚ))] 1) ∧
      ((∀ p ∈ [("A", (1 : ℚ))], p.2 ≠ 1/1000000) →
        postProcess [("A", (1 : ℚ))] 1 = postProcessSpec [("A", (1 : ℚ))] 1) :=
  pragmatic_post_processing (fun _ => some [(1 : ℚ)]) [("A", [some 0])] 0 1 1
    [("A", (1 : ℚ))] [("A", (1 : ℚ))]
    (by norm_num +decide [solveMV, clip])
    (by norm_num +decide [solveMV, clip, selectCols, sortHead, sortDesc, rLE,
      List.find?, List.filter])

/-- C7: `portfolio_stats` computes exactly the spec's formulas: mean, ddof-1
sample standard deviation, monthly Sharpe `mean/std` (not-a-number exactly
when the standard deviation is 0, which is also how the code's `std > 0`
guard reads since a standard deviation is never negative), annualized mean
`(1+mean)^12 - 1`, annualized volatility `std * sqrt 12`, and annualized
Sharpe with the same not-a-number rule. It is a total function of the input
series — the embedding's only partiality is the `Option` encoding of the
not-a-number outputs. -/
theorem portfolio_stats_eq_spec (xs : List ℝ) :
    portfolio_stats xs = portfolioStatsSpec xs := by
  have hv : 0 ≤ sstd xs := Real.sqrt_nonneg _
  have hva : 0 ≤ sstd xs * Real.sqrt 12 := mul_nonneg hv (Real.sqrt_nonneg _)
  have h1 : (if 0 < sstd xs then some (smean xs / sstd xs) else none) =
      (if sstd xs = 0 then none else some (smean xs / sstd xs)) := by
    rcases eq_or_lt_of_le hv with h | h
    · rw [if_neg (not_lt.mpr (le_of_eq h.symm)), if_pos h.symm]
    · rw [if_pos h, if_neg (ne_of_gt h)]
  have h2 : (if 0 < sstd xs * Real.sqrt 12 then
        some (((1 + smean xs) ^ 12 - 1) / (sstd xs * Real.sqrt 12)) else none) =
      (if sstd xs * Real.sqrt 12 = 0 then none
        else some (((1 + smean xs) ^ 12 - 1) / (sstd xs * Real.sqrt 12))) := by
    rcases eq_or_lt_of_le hva with h | h
    · rw [if_neg (not_lt.mpr (le_of_eq h.symm)), if_pos h.symm]
    · rw [if_pos h, if_neg (ne_of_gt h)]
  simp only [portfolio_stats, portfolioStatsSpec]
  rw [h1, h2]

theorem find?_eq_of_mem_nodup {ff5 : List (ℤ × FRow)}
    (hnd : (ff5.map Prod.fst).Nodup) {p : ℤ} {r : FRow} (hm : (p, r) ∈ ff5) :
    ff5.find? (fun q => q.1 = p) = some (p, r) := by
  induction ff5 with
  | nil => cases hm
  | cons x xs ih =>
    rw [List.map_cons, List.nodup_cons] at hnd
    rcases List.mem_cons.mp hm with heq | hmem
    · subst heq
      exact List.find?_cons_of_pos _ (by simp)
    · have hx : ¬(x.1 = p) := by
        intro hxp
        exact hnd.1 (hxp ▸ (List.mem_map_of_mem Prod.fst hmem))
      rw [List.find?_cons_of_neg _ (by simpa using hx)]
      exact ih hnd.2 hmem

theorem completeRow_eq_some_iff (v : Option ℚ) (r : FRow) (j : JRow) :
    completeRow v r = some j ↔ (v = some j.port ∧ r = frowOf j) := by
  obtain ⟨jp, j1, j2, j3, j4, j5, j6⟩ := j
  rcases r with ⟨f1, f2, f3, f4, f5, f6⟩
  rcases v with _ | pw <;> rcases f1 with _ | a <;> rcases f2 with _ | b <;>
    rcases f3 with _ | c <;> rcases f4 with _ | d <;> rcases f5 with _ | e <;>
    rcases f6 with _ | f <;> simp [completeRow, frowOf]

theorem mem_joinDropna_iff (port : List (ℤ × Option ℚ)) (ff5 : List (ℤ × FRow))
    (hnd : (ff5.map Prod.fst).Nodup) (p : ℤ) (j : JRow) :
    (p, j) ∈ joinDropna port ff5 ↔
      ((p, some j.port) ∈ port ∧ (p, frowOf j) ∈ ff5) := by
  rw [joinDropna, List.mem_filterMap]
  constructor
  · rintro ⟨⟨pp, pv⟩, hpv, hf⟩
    cases hfind : ff5.find? (fun q => q.1 = pp) with
    | none => rw [hfind] at hf; simp at hf
    | some qr =>
      rw [hfind] at hf
      simp only [Option.some_bind] at hf
      cases hcr : completeRow pv qr.2 with
      | none => rw [hcr] at hf; simp at hf
      | some j' =>
        rw [hcr] at hf
        simp only [Option.map_some'] at hf
        injection hf with hf2
        injection hf2 with h1 h2
        obtain ⟨hv, hr⟩ := (completeRow_eq_some_iff pv qr.2 j').mp hcr
        have hq1 : qr.1 = pp := by simpa using List.find?_some hfind
        have hqmem := List.mem_of_find?_eq_some hfind
        refine ⟨?_, ?_⟩
        · rw [← h1, ← h2, ← hv]
          exact hpv
        · rw [← h1, ← h2, ← hr, ← hq1]
          simpa using hqmem
  · rintro ⟨hport, hff⟩
    refine ⟨(p, some j.port), hport, ?_⟩
    rw [find?_eq_of_mem_nodup hnd hff]
    simp [completeRow, frowOf]

/-- C8: `run_ff5_regression` regresses over exactly the periods present in
both the portfolio series and the factor table with no missing value in any
joined column (characterised through `joinDropna`, assuming unique factor
periods), passes the excess returns `port - RF` of those rows to the OLS
oracle, and on success reports the intercept as monthly alpha together with
`(1+alpha)^12 - 1`, the intercept t-statistic, and the number of joined
observations; an OLS failure — in particular on an empty joined sample —
propagates to the caller instead of producing a result. -/
theorem run_ff5_regression_spec (ols : OLS) (port : List (ℤ × Option ℚ))
    (ff5 : List (ℤ × FRow))
    (hnd : (ff5.map Prod.fst).Nodup)
    (hempty : ∃ e, ols [] [] = .error e) :
    (∀ p j, (p, j) ∈ joinDropna port ff5 ↔
        ((p, some j.port) ∈ port ∧ (p, frowOf j) ∈ ff5)) ∧
    (∀ a t, ols
        ((joinDropna port ff5).map (fun r => (r.2.mktrf, r.2.smb, r.2.hml, r.2.rmw, r.2.cma)))
        ((joinDropna port ff5).map (fun r => r.2.port - r.2.rf)) = .ok (a, t) →
      run_ff5_regression ols port ff5 =
        .ok ⟨a, (1 + a) ^ 12 - 1, t, (joinDropna port ff5).length⟩) ∧
    (∀ e, ols
        ((joinDropna port ff5).map (fun r => (r.2.mktrf, r.2.smb, r.2.hml, r.2.rmw, r.2.cma)))
        ((joinDropna port ff5).map (fun r => r.2.port - r.2.rf)) = .error e →
      run_ff5_regression ols port ff5 = .error e) ∧
    (joinDropna port ff5 = [] → ∃ e, run_ff5_regression ols port ff5 = .error e) := by
  refine ⟨mem_joinDropna_iff port ff5 hnd, ?_, ?_, ?_⟩
  · intro a t h
    rw [run_ff5_regression, h]
  · intro e h
    rw [run_ff5_regression, h]
  · intro hj
    obtain ⟨e, he⟩ := hempty
    refine ⟨e, ?_⟩
    rw [run_ff5_regression, hj]
    rw [List.map_nil, List.map_nil, he]

/-- Witness for C8 at a one-period portfolio, a one-row complete factor
table, and an OLS oracle failing exactly on empty samples. -/
theorem run_ff5_regression_spec_witness :
    run_ff5_regression
        (fun _ y => if y.isEmpty then .error "empty sample" else .ok (0, 0))
        [((0 : ℤ), some (1/10))]
        [((0 : ℤ), ⟨some 0, some 0, some 0, some 0, some 0, some (1/100)⟩)] =
      .ok ⟨0, (1 + 0) ^ 12 - 1, 0,
        (joinDropna [((0 : ℤ), some (1/10))]
          [((0 : ℤ), ⟨some 0, some 0, some 0, some 0, some 0, some (1/100)⟩)]).length⟩ :=
  (run_ff5_regression_spec
      (fun _ y => if y.isEmpty then .error "empty sample" else .ok (0, 0))
      [((0 : ℤ), some (1/10))]
      [((0 : ℤ), ⟨some 0, some 0, some 0, some 0, some 0, some (1/100)⟩)]
      (by simp) ⟨"empty sample", rfl⟩).2.1 0 0 rfl

end PersonalInvesting
